import Mathlib

/-!
Verification of the atactk scoring core (ParkerLab/atactk).

This file gives a shallow embedding, in Lean 4, of the pure core of the
atactk ATAC-seq toolkit: the list utilities in `atactk/util.py`, the score
reduction and aggregation in `atactk/metrics.py` and
`atactk/metrics/common.py`, the cut-point scoring in
`atactk/metrics/cut.py`, the midpoint scoring in `atactk/metrics/mid.py`,
the bin overlap validation in `atactk/command.py`, and the
`ExtendedFeature` geometry from `atactk/data.py`.  Python lists of scores
become `List Int`; Python `int` becomes `Int` (with floor division, as in
Python, where it matters); aligned reads and features become structures
exposing exactly the fields the scoring code reads.  Theorems about these
definitions settle the specification claims.
-/

namespace Atactk

/-- Python slice `l[i:j]` (step 1) with Python index semantics: a negative
index counts from the end of the list, out-of-range indices clamp.  Note
that in Python `-0 == 0`, so `l[i:-0]` is `l[i:0]`, i.e. empty — the
embedding shares that behaviour because `-(0 : Int) = 0`. -/
def pySlice (l : List Int) (i j : Int) : List Int :=
  (l.take ((if j < 0 then (l.length : Int) + j else j).toNat)).drop
    ((if i < 0 then (l.length : Int) + i else i).toNat)

/-- Python slice `l[i:]` (step 1, no stop index). -/
def pySliceFrom (l : List Int) (i : Int) : List Int :=
  l.drop ((if i < 0 then (l.length : Int) + i else i).toNat)

/-- Python slice `l[:j]` (step 1, no start index). -/
def pySliceTo (l : List Int) (j : Int) : List Int :=
  l.take ((if j < 0 then (l.length : Int) + j else j).toNat)

/-- Recursion core for `partition`, structurally recursive on a fuel
argument so that it evaluates by kernel reduction; `partition` always
supplies enough fuel (the list's length). -/
def partitionFuel (count : Nat) : Nat → List Int → List (List Int)
  | _, [] => []
  | 0, _ :: _ => []
  | fuel + 1, x :: xs =>
    if count = 0 then []
    else (x :: xs).take count :: partitionFuel count fuel ((x :: xs).drop count)

/-- Embedding of `atactk.util.partition(count, seq)`: successive chunks of
`count` elements, the last chunk possibly short.  The Python generator
repeatedly `take`s `count` elements and stops at the first empty chunk, so
with `count = 0` it yields nothing at all. -/
def partition (count : Nat) (l : List Int) : List (List Int) :=
  partitionFuel count l.length l

/-- The fuel argument of `partitionFuel` is irrelevant as long as it is at
least the length of the list being partitioned. -/
theorem partitionFuel_congr (count : Nat) :
    ∀ f1 f2 l, l.length ≤ f1 → l.length ≤ f2 →
      partitionFuel count f1 l = partitionFuel count f2 l := by
  intro f1
  induction f1 with
  | zero =>
    intro f2 l h1 _
    have : l = [] := List.eq_nil_of_length_eq_zero (Nat.le_zero.mp h1)
    subst this
    cases f2 <;> rfl
  | succ g1 ih =>
    intro f2 l h1 h2
    cases l with
    | nil => cases f2 <;> rfl
    | cons x xs =>
      cases f2 with
      | zero => simp at h2
      | succ g2 =>
        by_cases hc : count = 0
        · simp [partitionFuel, hc]
        · simp only [partitionFuel, if_neg hc]
          simp only [List.length_cons] at h1 h2
          refine congrArg _ (ih g2 _ ?_ ?_) <;>
            · simp only [List.length_drop, List.length_cons]
              omega

/-- Unfolding equation for `partition` on a nonempty list, for a nonzero
chunk size. -/
theorem partition_cons (count : Nat) (hc : count ≠ 0) (x : Int) (xs : List Int) :
    partition count (x :: xs) =
      (x :: xs).take count :: partition count ((x :: xs).drop count) := by
  show partitionFuel count (xs.length + 1) (x :: xs) = _
  simp only [partitionFuel, if_neg hc]
  refine congrArg _ (partitionFuel_congr count xs.length _ _ ?_ le_rfl)
  simp only [List.length_drop, List.length_cons]
  omega

/-- Embedding of `reduce_scores(scores, resolution)` from
`atactk/metrics/common.py` (an identical copy lives in
`atactk/metrics.py`): return `scores` unchanged at resolution 1, else sum
each chunk produced by `partition`. -/
def reduce_scores (scores : List Int) (resolution : Nat) : List Int :=
  if resolution = 1 then scores
  else (partition resolution scores).map List.sum

/-- Embedding of `aggregate_scores(scores, extension, resolution)` from
`atactk/metrics.py`: `reduce(scores[:extension]) + scores[extension:-extension]
+ reduce(scores[-extension:])`, with Python slice semantics. -/
def aggregate_scores (scores : List Int) (extension : Nat) (resolution : Nat) : List Int :=
  reduce_scores (pySliceTo scores extension) resolution ++
  pySlice scores extension (-(extension : Int)) ++
  reduce_scores (pySliceFrom scores (-(extension : Int))) resolution

/-- Embedding of `atactk.util.add_lists(l1, l2)`, which is
`map(operator.add, l1, l2)`: under Python 3, `map` over two lists stops at
the end of the shorter one, which is exactly `List.zipWith`. -/
def add_lists (l1 l2 : List Int) : List Int :=
  List.zipWith (fun a b => a + b) l1 l2

/-- Default transposase footprint offset,
`DEFAULT_CUT_POINT_OFFSET = 4` from `atactk/metrics/common.py`. -/
def DEFAULT_CUT_POINT_OFFSET : Int := 4

/-- An aligned read, embedding the pysam `AlignedSegment` fields the
scoring core reads: query name, SAM flag, 0-based reference start,
one-past-the-end reference position, strand flag, template length
(`isize`, negative for reverse reads), mapping quality, and mate start. -/
structure AlignedSegment where
  qname : String
  flag : Nat
  reference_start : Int
  reference_end : Int
  is_reverse : Bool
  isize : Int
  mapping_quality : Nat
  next_reference_start : Int
deriving DecidableEq, Repr

/-- Embedding of `find_cut_point(aligned_segment, cut_point_offset)` from
`atactk/metrics/cut.py`: `reference_end - (cut_point_offset + 1)` for
reverse reads, `reference_start + cut_point_offset` for forward reads. -/
def find_cut_point (aligned_segment : AlignedSegment) (cut_point_offset : Int) : Int :=
  if aligned_segment.is_reverse then
    aligned_segment.reference_end - (cut_point_offset + 1)
  else
    aligned_segment.reference_start + cut_point_offset

/-- The `cut_points_in_region` list built by `count_cut_points`: each
segment's cut point, kept when it lies in `[start, stop)`. -/
def cut_points_in_region (aligned_segments : List AlignedSegment) (start stop : Int)
    (cut_point_offset : Int) : List Int :=
  (aligned_segments.map (fun s => find_cut_point s cut_point_offset)).filter
    (fun c => decide (start ≤ c ∧ c < stop))

/-- Embedding of `count_cut_points(aligned_segments, start, end, ...)` from
`atactk/metrics/cut.py`: the Python code builds a dict mapping every
position of `range(start, end)` to 0, overlays the `Counter` of the
in-region cut points, and reads the counts back in sorted key order — i.e.
one count per position of `[start, stop)`, in order. -/
def count_cut_points (aligned_segments : List AlignedSegment) (start stop : Int)
    (cut_point_offset : Int) : List Int :=
  (List.range (stop - start).toNat).map
    (fun (i : Nat) =>
      ((cut_points_in_region aligned_segments start stop cut_point_offset).count
        (start + (i : Int)) : Int))

/-- Python 3 `round(L / 2.0)` for an integer `L`: exact halves round to the
nearest even integer (banker's rounding); other values here are exact. -/
def pyRoundHalfLength (L : Int) : Int :=
  if L % 2 = 0 then L / 2
  else
    let k := Int.fdiv L 2
    if k % 2 = 0 then k else k + 1

/-- Embedding of `atactk.data.ExtendedFeature`: the first six BED fields
plus the extension length.  The numeric `score` field is a float never
read by the scoring core, so it is omitted here.  The extension is an
`int(...)` of a nonnegative CLI base count, modelled as `Nat`. -/
structure ExtendedFeature where
  reference : String
  feature_start : Int
  feature_end : Int
  name : Option String
  strand : Option String
  extension : Nat
deriving DecidableEq, Repr

/-- Property `feature_length`: `feature_end - feature_start`. -/
def ExtendedFeature.feature_length (f : ExtendedFeature) : Int :=
  f.feature_end - f.feature_start

/-- Property `center`: `feature_start + int(round(feature_length / 2.0))`. -/
def ExtendedFeature.center (f : ExtendedFeature) : Int :=
  f.feature_start + pyRoundHalfLength f.feature_length

/-- Property `is_reverse`: whether the strand is `-`. -/
def ExtendedFeature.is_reverse (f : ExtendedFeature) : Bool :=
  f.strand == some "-"

/-- Property `region_start`: `center - extension`. -/
def ExtendedFeature.region_start (f : ExtendedFeature) : Int :=
  f.center - (f.extension : Int)

/-- Property `region_end`: `center + extension`. -/
def ExtendedFeature.region_end (f : ExtendedFeature) : Int :=
  f.center + (f.extension : Int)

/-- Property `region_length`: `extension * 2`. -/
def ExtendedFeature.region_length (f : ExtendedFeature) : Int :=
  (f.extension : Int) * 2

/-- The bin filter of `score_feature_with_cut_points`: keep the segments
whose absolute template length lies in `[minimum_length, maximum_length]`. -/
def aligned_segments_in_bin (aligned_segments : List AlignedSegment)
    (minimum_length maximum_length : Int) : List AlignedSegment :=
  aligned_segments.filter
    (fun a => decide (minimum_length ≤ |a.isize| ∧ |a.isize| ≤ maximum_length))

/-- The oriented per-strand cut-point vectors computed for one bin inside
`score_feature_with_cut_points` (`atactk/metrics/cut.py`): split the
in-bin segments by strand, count cut points over
`[region_start, region_end)` for each subset, and, for a reverse-strand
feature, swap the two vectors and reverse each. -/
def bin_cut_point_vectors (aligned_segments : List AlignedSegment) (f : ExtendedFeature)
    (cut_point_offset : Int) (minimum_length maximum_length : Int) : List Int × List Int :=
  let inBin := aligned_segments_in_bin aligned_segments minimum_length maximum_length
  let forward_aligned_segments := inBin.filter (fun a => !a.is_reverse)
  let reverse_aligned_segments := inBin.filter (fun a => a.is_reverse)
  let forward_cut_points :=
    count_cut_points forward_aligned_segments f.region_start f.region_end cut_point_offset
  let reverse_cut_points :=
    count_cut_points reverse_aligned_segments f.region_start f.region_end cut_point_offset
  if f.is_reverse then (reverse_cut_points.reverse, forward_cut_points.reverse)
  else (forward_cut_points, reverse_cut_points)

/-- The discrete-matrix row contribution (`bin_scores`) appended for one
bin by `score_feature_with_cut_points`: `reduce_scores` of the oriented
forward vector followed by `reduce_scores` of the oriented reverse
vector, both at the bin's resolution. -/
def bin_scores (aligned_segments : List AlignedSegment) (f : ExtendedFeature)
    (cut_point_offset : Int) (minimum_length maximum_length : Int)
    (resolution : Nat) : List Int :=
  let v := bin_cut_point_vectors aligned_segments f cut_point_offset minimum_length maximum_length
  reduce_scores v.1 resolution ++ reduce_scores v.2 resolution

/-- A parsed bin: `(start, end, resolution)`, as built by `parse_bins` in
`atactk/command.py`. -/
abbrev Bin := Int × Int × Int

/-- Python tuple comparison `a <= b` on `(start, end, resolution)`
triples: lexicographic. -/
def binLe (a b : Bin) : Bool :=
  decide (a.1 < b.1) ||
    (decide (a.1 = b.1) &&
      (decide (a.2.1 < b.2.1) ||
        (decide (a.2.1 = b.2.1) && decide (a.2.2 ≤ b.2.2))))

/-- Stable insertion of a bin into a sorted list, ordered by `binLe`. -/
def insertBin (b : Bin) : List Bin → List Bin
  | [] => [b]
  | c :: rest => if binLe b c then b :: c :: rest else c :: insertBin b rest

/-- Python `sorted` on a list of bin triples: a stable ascending sort by
lexicographic tuple order. -/
def sortBins : List Bin → List Bin
  | [] => []
  | b :: rest => insertBin b (sortBins rest)

/-- Loop body of `check_bins_for_overlap` (`atactk/command.py`): walk the
bins carrying the previous bin's `(start, end)` — initialized to the
sentinel `(0, 0)` — and report an overlap (`true` = the Python code
raises) as soon as some bin's start is at most the previous end. -/
def checkBinsLoop (_last_start last_end : Int) : List Bin → Bool
  | [] => false
  | b :: rest => if b.1 ≤ last_end then true else checkBinsLoop b.1 b.2.1 rest

/-- Embedding of `check_bins_for_overlap(bins)`: the loop above started
from `last_start, last_end = 0, 0`; `true` means the Python code raises
`argparse.ArgumentTypeError`. -/
def check_bins_for_overlap (bins : List Bin) : Bool :=
  checkBinsLoop 0 0 bins

/-- The overlap-validation step of `parse_bins` (`atactk/command.py`):
flatten the groups to a list of bins, sort, and check for overlaps.
`true` means parsing fails with the overlap error. -/
def parse_bins_overlap (groups : List (List Bin)) : Bool :=
  check_bins_for_overlap (sortBins groups.flatten)

/-- Embedding of `find_midpoint(aligned_segment)` from
`atactk/metrics/mid.py`: `reference_end + isize // 2` for reverse reads
(`isize` is negative there), `reference_start + isize // 2` for forward
reads.  Python `//` is floor division, hence `Int.fdiv`. -/
def find_midpoint (aligned_segment : AlignedSegment) : Int :=
  if aligned_segment.is_reverse then
    aligned_segment.reference_end + Int.fdiv aligned_segment.isize 2
  else
    aligned_segment.reference_start + Int.fdiv aligned_segment.isize 2

/-- The deduplicating loop of `count_midpoints` (`atactk/metrics/mid.py`),
keeping the produced midpoints paired with the query name that produced
them: a segment whose query name was already seen is skipped; otherwise
the name is marked seen and the segment's midpoint is recorded when it
lies in `[region_start, region_end)`. -/
def midpoint_records (f : ExtendedFeature) (reads_seen : List String) :
    List AlignedSegment → List (String × Int)
  | [] => []
  | segment :: rest =>
    if segment.qname ∈ reads_seen then midpoint_records f reads_seen rest
    else if f.region_start ≤ find_midpoint segment ∧ find_midpoint segment < f.region_end then
      (segment.qname, find_midpoint segment) :: midpoint_records f (segment.qname :: reads_seen) rest
    else
      midpoint_records f (segment.qname :: reads_seen) rest

/-- Embedding of `count_midpoints(aligned_segments, feature)` from
`atactk/metrics/mid.py`: count the deduplicated in-region midpoints at
each position of `[region_start, region_end)`, reversing the vector for a
reverse-strand feature. -/
def count_midpoints (aligned_segments : List AlignedSegment) (f : ExtendedFeature) : List Int :=
  let midpoints_in_region := (midpoint_records f [] aligned_segments).map Prod.snd
  let midpoint_counts := (List.range (f.region_end - f.region_start).toNat).map
    (fun (i : Nat) => (midpoints_in_region.count (f.region_start + (i : Int)) : Int))
  if f.is_reverse then midpoint_counts.reverse else midpoint_counts

/-- Specification-side predicate for claim C5, following the spec's words:
in a sorted flattened bin list, some bin's start is at most the previous
bin's end (the first bin has no previous bin here — no sentinel). -/
def adjacentOverlap (bins : List Bin) : Bool :=
  (bins.zip bins.tail).any (fun pb => decide (pb.2.1 ≤ pb.1.2.1))

/-- Feature used for the C1 concrete computations: a zero-length feature
at position 10 with extension 2, so the scored region is [8, 12). -/
def featC1 : ExtendedFeature := ⟨"chr1", 10, 10, none, none, 2⟩

/-- Four forward reads whose cut points (at the default offset 4) land at
positions 8, 9, 10 and 11, one each; all template lengths are 50. -/
def segsC1 : List AlignedSegment :=
  [⟨"a1", 0, 4, 40, false, 50, 60, 0⟩,
    ⟨"a2", 0, 5, 41, false, 50, 60, 0⟩,
    ⟨"a3", 0, 6, 42, false, 50, 60, 0⟩,
    ⟨"a4", 0, 7, 43, false, 50, 60, 0⟩]

end Atactk

namespace Atactk

example : partition 3 [1, 2, 3, 4, 5, 6, 7, 8] = [[1, 2, 3], [4, 5, 6], [7, 8]] := by decide

example : reduce_scores [0, 1, 1, 4, 2] 2 = [1, 5, 2] := by decide

example : reduce_scores [0, 1, 1, 4, 2] 10 = [8] := by decide

example : aggregate_scores [0, 1, 2, 3, 3, 9, 2, 0, 5, 4, 3, 2] 4 2 = [1, 5, 3, 9, 2, 0, 9, 5] := by decide

example : aggregate_scores [0, 1, 1, 4, 2] 0 2 = [1, 5, 2] := by decide

example : add_lists [0, 1, 2] [3, 4, 5] = [3, 5, 7] := by decide

/-- Partitioning the empty list gives no chunks. -/
theorem partition_nil (count : Nat) : partition count [] = [] := rfl

/-- Partitioning at chunk size 1 produces singleton chunks. -/
theorem partition_one (v : List Int) : partition 1 v = v.map (fun x => [x]) := by
  induction v with
  | nil => rfl
  | cons x xs ih => rw [partition_cons 1 one_ne_zero x xs]; simp [ih]

/-- Scores reduce to the chunk sums of `partition` at every positive
resolution, including resolution 1. -/
theorem reduce_scores_eq_map_sum (v : List Int) (r : Nat) (hr : 1 ≤ r) :
    reduce_scores v r = (partition r v).map List.sum := by
  by_cases h1 : r = 1
  · subst h1
    rw [reduce_scores, if_pos rfl, partition_one, List.map_map]
    have hsum : (List.sum ∘ fun x : Int => [x]) = id := by
      funext x; simp
    rw [hsum, List.map_id]
  · rw [reduce_scores, if_neg h1]

/-- Reducing the empty score vector gives the empty vector. -/
theorem reduce_scores_nil (r : Nat) : reduce_scores [] r = [] := by
  rw [reduce_scores]
  split <;> rfl

/-- The chunk sums of a partition add up to the sum of the whole list. -/
theorem sum_partition_map_sum (r : Nat) (hr : 1 ≤ r) (v : List Int) :
    ((partition r v).map List.sum).sum = v.sum := by
  suffices h : ∀ (n : Nat) (w : List Int), w.length ≤ n →
      ((partition r w).map List.sum).sum = w.sum from h v.length v le_rfl
  intro n
  induction n with
  | zero =>
    intro w hw
    have hnil : w = [] := List.eq_nil_of_length_eq_zero (Nat.le_zero.mp hw)
    subst hnil; rfl
  | succ n ih =>
    intro w hw
    cases w with
    | nil => rfl
    | cons x xs =>
      rw [partition_cons r (by omega) x xs]
      simp only [List.map_cons, List.sum_cons]
      simp only [List.length_cons] at hw
      rw [ih ((x :: xs).drop r)
        (by simp only [List.length_drop, List.length_cons]; omega)]
      rw [← List.sum_append, List.take_append_drop, List.sum_cons]

/-- Partitioning distributes over an append whose first part's length is a
multiple of the chunk size. -/
theorem partition_append (r : Nat) (hr : 1 ≤ r) :
    ∀ (k : Nat) (a b : List Int), a.length = r * k →
      partition r (a ++ b) = partition r a ++ partition r b := by
  intro k
  induction k with
  | zero =>
    intro a b ha
    have hnil : a = [] := List.eq_nil_of_length_eq_zero (by omega)
    subst hnil; simp [partition_nil]
  | succ n ih =>
    intro a b ha
    cases a with
    | nil =>
      simp only [List.length_nil] at ha
      have hpos : 0 < r * (n + 1) := Nat.mul_pos (by omega) (Nat.succ_pos n)
      omega
    | cons x xs =>
      have hrne : r ≠ 0 := by omega
      have hlen : r ≤ (x :: xs).length := by
        rw [ha]
        calc r = r * 1 := (Nat.mul_one r).symm
          _ ≤ r * (n + 1) := Nat.mul_le_mul_left r (by omega)
      rw [List.cons_append, partition_cons r hrne x (xs ++ b), ← List.cons_append,
        List.take_append_of_le_length hlen, List.drop_append_of_le_length hlen,
        partition_cons r hrne x xs, List.cons_append]
      refine congrArg _ (ih ((x :: xs).drop r) b ?_)
      rw [List.length_drop, ha, Nat.mul_succ]
      omega

/-- With extension 0, `aggregate_scores` reduces the entire vector at the
given resolution: the leading slice `scores[:0]` and the interior slice
`scores[0:-0]` are both empty (Python's `-0` is `0`), while the trailing
slice `scores[-0:]` is the whole vector. -/
theorem aggregate_scores_zero (v : List Int) (r : Nat) :
    aggregate_scores v 0 r = reduce_scores v r := by
  simp [aggregate_scores, pySliceTo, pySlice, pySliceFrom, reduce_scores_nil]

/-- Claim C2, counterexample: at resolution 2 (which satisfies the claim's
hypothesis `r ≥ 1`), `aggregate_scores` with extension 0 does not return
the input unchanged — it returns the whole vector reduced at resolution
2. -/
theorem C2_counterexample :
    1 ≤ 2 ∧ aggregate_scores [0, 1, 1, 4, 2] 0 2 ≠ [0, 1, 1, 4, 2] := by decide

/-- Claim C2 (amended): for every score vector `v` and resolution `r`,
`aggregate_scores` called with extension 0 returns `reduce_scores v r` —
the whole vector reduced at resolution `r` — and therefore returns `v`
unchanged exactly in the resolution-1 case. -/
theorem C2_extension_zero (v : List Int) (r : Nat) :
    aggregate_scores v 0 r = reduce_scores v r ∧ aggregate_scores v 0 1 = v := by
  refine ⟨aggregate_scores_zero v r, ?_⟩
  rw [aggregate_scores_zero v 1, reduce_scores, if_pos rfl]

/-- Claim C8: reduction at resolution 1 is the identity, and reduction at
any resolution `r ≥ 1` preserves the total mass of the score vector. -/
theorem C8_reduce_mass (v : List Int) (r : Nat) (hr : 1 ≤ r) :
    reduce_scores v 1 = v ∧ (reduce_scores v r).sum = v.sum := by
  constructor
  · rw [reduce_scores, if_pos rfl]
  · rw [reduce_scores_eq_map_sum v r hr]
    exact sum_partition_map_sum r hr v

/-- Witness for C8 at the vector `[0, 1, 1, 4, 2]` and resolution 3. -/
theorem C8_witness :
    1 ≤ 3 ∧ (reduce_scores [0, 1, 1, 4, 2] 1 = [0, 1, 1, 4, 2] ∧
      (reduce_scores [0, 1, 1, 4, 2] 3).sum = ([0, 1, 1, 4, 2] : List Int).sum) :=
  ⟨by decide, C8_reduce_mass [0, 1, 1, 4, 2] 3 (by decide)⟩

/-- Claim C4, counterexample: on inputs of mismatched lengths `add_lists`
raises no error — it silently returns the element-wise sum truncated to
the shorter length (Python 3 `map` over two lists stops at the shorter
one). -/
theorem C4_counterexample :
    add_lists [1, 2, 3] [4, 5] = [5, 7] ∧ (add_lists [1, 2, 3] [4, 5]).length ≠ 3 := by
  decide

/-- Claim C4 (amended): `add_lists` returns the element-wise sum over the
common prefix of its inputs — on equal-length inputs this is the
element-wise sum, but a length mismatch is not detected: the result is
silently truncated to the shorter length and no error is raised. -/
theorem C4_add_lists (l1 l2 : List Int) :
    (add_lists l1 l2).length = min l1.length l2.length ∧
    ∀ i : Nat, i < l1.length → i < l2.length →
      (add_lists l1 l2).getD i 0 = l1.getD i 0 + l2.getD i 0 := by
  constructor
  · simp [add_lists]
  · intro i h1 h2
    have hlen : i < (add_lists l1 l2).length := by
      simp only [add_lists, List.length_zipWith]
      omega
    simp only [add_lists] at hlen ⊢
    rw [List.getD_eq_getElem?_getD, List.getElem?_eq_getElem hlen,
      List.getD_eq_getElem?_getD, List.getElem?_eq_getElem h1,
      List.getD_eq_getElem?_getD, List.getElem?_eq_getElem h2,
      List.getElem_zipWith]
    rfl

/-- Witness for C4 at index 1 of the equal-length lists `[10, 20, 30]` and
`[1, 2, 3]`. -/
theorem C4_witness :
    (1 : Nat) < 3 ∧ (add_lists [10, 20, 30] [1, 2, 3]).getD 1 0 =
      ([10, 20, 30] : List Int).getD 1 0 + ([1, 2, 3] : List Int).getD 1 0 :=
  ⟨by decide, (C4_add_lists [10, 20, 30] [1, 2, 3]).2 1 (by decide) (by decide)⟩

/-- The overlap-check loop reports an overlap on `b :: rest` exactly when
the first bin's start is at most the incoming previous end, or some later
bin's start is at most its predecessor's end. -/
theorem checkBinsLoop_cons_eq :
    ∀ (rest : List Bin) (b : Bin) (ls le : Int),
      checkBinsLoop ls le (b :: rest) =
        (decide (b.1 ≤ le) || adjacentOverlap (b :: rest)) := by
  intro rest
  induction rest with
  | nil =>
    intro b ls le
    by_cases h : b.1 ≤ le <;> simp [checkBinsLoop, adjacentOverlap, h]
  | cons c rest2 ih =>
    intro b ls le
    have hstep : checkBinsLoop ls le (b :: c :: rest2) =
        (if b.1 ≤ le then true else checkBinsLoop b.1 b.2.1 (c :: rest2)) := rfl
    rw [hstep, ih c b.1 b.2.1]
    have hadj : adjacentOverlap (b :: c :: rest2) =
        (decide (c.1 ≤ b.2.1) || adjacentOverlap (c :: rest2)) := by
      simp [adjacentOverlap]
    rw [hadj]
    by_cases h : b.1 ≤ le <;> simp [h]

/-- Claim C5, counterexample: the single bin `(0, 10, 1)` makes the
overlap validation fail although no bin's start is at most a previous
bin's end (there is no previous bin at all) — the first bin is compared
against the internal sentinel `(0, 0)`. -/
theorem C5_counterexample :
    parse_bins_overlap [[(0, 10, 1)]] = true ∧
    adjacentOverlap (sortBins ([[(0, 10, 1)]] : List (List Bin)).flatten) = false := by
  decide

/-- Claim C5 (amended): bin-group parsing fails exactly when, in the
flattened list sorted by `(start, end)` ascending, some bin's start is at
most the previous bin's end, or the first sorted bin's start is at most 0
(the loop starts from the sentinel range `(0, 0)`); the two concrete
examples behave as the claim states. -/
theorem C5_overlap_check (groups : List (List Bin)) :
    (parse_bins_overlap groups = true ↔
      (adjacentOverlap (sortBins groups.flatten) = true ∨
        ∃ b rest, sortBins groups.flatten = b :: rest ∧ b.1 ≤ 0)) ∧
    parse_bins_overlap [[(10, 20, 1)], [(20, 30, 1)]] = true ∧
    parse_bins_overlap [[(10, 19, 1)], [(20, 30, 1)]] = false := by
  refine ⟨?_, by decide, by decide⟩
  unfold parse_bins_overlap check_bins_for_overlap
  cases hs : sortBins groups.flatten with
  | nil => simp [checkBinsLoop, adjacentOverlap]
  | cons b rest =>
    rw [checkBinsLoop_cons_eq rest b 0 0]
    simp only [Bool.or_eq_true, decide_eq_true_eq, List.cons.injEq]
    constructor
    · rintro (h | h)
      · exact Or.inr ⟨b, rest, ⟨rfl, rfl⟩, h⟩
      · exact Or.inl h
    · rintro (h | ⟨b', rest', ⟨hb, _⟩, hle⟩)
      · exact Or.inr h
      · exact Or.inl (hb ▸ hle)

/-- Claim C10: when the first bin of the sorted flattened list has start
at most 0, the overlap validation fails even if no two bins overlap,
because the first bin is compared against the sentinel range ending at
0. -/
theorem C10_sentinel_overlap (groups : List (List Bin)) (b : Bin) (rest : List Bin)
    (h1 : sortBins groups.flatten = b :: rest) (h2 : b.1 ≤ 0)
    (_h3 : adjacentOverlap (b :: rest) = false) :
    parse_bins_overlap groups = true := by
  unfold parse_bins_overlap check_bins_for_overlap
  rw [h1, checkBinsLoop_cons_eq rest b 0 0]
  simp [h2]

/-- Witness for C10: a single group of two non-overlapping bins whose
first bin starts at -5. -/
theorem C10_witness : parse_bins_overlap [[(-5, 3, 2), (10, 20, 1)]] = true :=
  C10_sentinel_overlap [[(-5, 3, 2), (10, 20, 1)]] (-5, 3, 2) [(10, 20, 1)]
    (by decide) (by decide) (by decide)

/-- Claim C6: the cut point of a forward read is `reference_start +
offset`, of a reverse read `reference_end - (offset + 1)`, and the default
offset is 4. -/
theorem C6_cut_point (a : AlignedSegment) (offset : Int) :
    DEFAULT_CUT_POINT_OFFSET = 4 ∧
    (a.is_reverse = false → find_cut_point a offset = a.reference_start + offset) ∧
    (a.is_reverse = true → find_cut_point a offset = a.reference_end - (offset + 1)) := by
  refine ⟨rfl, ?_, ?_⟩ <;> intro h <;> simp [find_cut_point, h]

/-- Witness for C6: a forward read starting at 100 has cut point 104 at
the default offset, and a reverse read ending one past 150 has cut point
145. -/
theorem C6_witness :
    find_cut_point ⟨"fwd1", 99, 100, 136, false, 36, 60, 120⟩ DEFAULT_CUT_POINT_OFFSET = 104 ∧
    find_cut_point ⟨"rev1", 83, 114, 150, true, -36, 60, 100⟩ DEFAULT_CUT_POINT_OFFSET = 145 := by
  constructor
  · have h := (C6_cut_point ⟨"fwd1", 99, 100, 136, false, 36, 60, 120⟩
      DEFAULT_CUT_POINT_OFFSET).2.1 rfl
    rw [h]; decide
  · have h := (C6_cut_point ⟨"rev1", 83, 114, 150, true, -36, 60, 100⟩
      DEFAULT_CUT_POINT_OFFSET).2.2 rfl
    rw [h]; decide

/-- Claim C7: scoring a feature on the reverse strand yields the pair of
oriented cut-point vectors obtained by swapping and reversing the two
vectors computed for the same reads with the feature on the forward
strand. -/
theorem C7_reverse_feature_swap (f : ExtendedFeature) (segs : List AlignedSegment)
    (offset minimum_length maximum_length : Int) :
    bin_cut_point_vectors segs { f with strand := some "-" } offset minimum_length maximum_length =
      ((bin_cut_point_vectors segs { f with strand := some "+" } offset
          minimum_length maximum_length).2.reverse,
        (bin_cut_point_vectors segs { f with strand := some "+" } offset
          minimum_length maximum_length).1.reverse) := by
  have hm : ExtendedFeature.is_reverse { f with strand := some "-" } = true := by
    simp [ExtendedFeature.is_reverse]
  have hp : ExtendedFeature.is_reverse { f with strand := some "+" } = false := by
    simp [ExtendedFeature.is_reverse]
  simp [bin_cut_point_vectors, hm, hp, ExtendedFeature.region_start,
    ExtendedFeature.region_end, ExtendedFeature.center, ExtendedFeature.feature_length]

/-- Claim C3 is the documented behaviour, but the code lacks any length
check: this 2-base forward read (aligned length 2 < offset + 1 = 5) still
contributes a count, at position 104 of the region [100, 110), because
`count_cut_points` filters cut points only by the region bounds. -/
theorem C3_short_read_counted :
    (⟨"short1", 0, 100, 102, false, 2, 60, 100⟩ : AlignedSegment).reference_end -
        (⟨"short1", 0, 100, 102, false, 2, 60, 100⟩ : AlignedSegment).reference_start <
      DEFAULT_CUT_POINT_OFFSET + 1 ∧
    count_cut_points [⟨"short1", 0, 100, 102, false, 2, 60, 100⟩] 100 110
        DEFAULT_CUT_POINT_OFFSET = [0, 0, 0, 0, 1, 0, 0, 0, 0, 0] := by
  decide

/-- Once a query name is in the seen set, the midpoint loop records no
further midpoint for it. -/
theorem records_skip_seen (f : ExtendedFeature) (q : String) :
    ∀ (segs : List AlignedSegment) (seen : List String), q ∈ seen →
      (midpoint_records f seen segs).filter (fun p => p.1 == q) = [] := by
  intro segs
  induction segs with
  | nil => intro seen _; rfl
  | cons s rest ih =>
    intro seen hq
    simp only [midpoint_records]
    by_cases hs : s.qname ∈ seen
    · rw [if_pos hs]
      exact ih seen hq
    · rw [if_neg hs]
      have hne : s.qname ≠ q := fun h => hs (h ▸ hq)
      by_cases hin : f.region_start ≤ find_midpoint s ∧ find_midpoint s < f.region_end
      · rw [if_pos hin, List.filter_cons]
        have hbeq : ((s.qname, find_midpoint s).1 == q) = false := by
          simp [hne]
        rw [if_neg (by simp [hbeq])]
        exact ih (s.qname :: seen) (List.mem_cons_of_mem _ hq)
      · rw [if_neg hin]
        exact ih (s.qname :: seen) (List.mem_cons_of_mem _ hq)

/-- The midpoint loop's records for a query name not yet seen: when every
read with that name has its midpoint inside the region, the records for
that name reduce to the single midpoint of the first such read
encountered — every later mate is skipped. -/
theorem records_filter_first (f : ExtendedFeature) (q : String) :
    ∀ (segs : List AlignedSegment) (seen : List String) (s0 : AlignedSegment),
      q ∉ seen →
      segs.find? (fun s => s.qname == q) = some s0 →
      (∀ s ∈ segs, s.qname = q →
        f.region_start ≤ find_midpoint s ∧ find_midpoint s < f.region_end) →
      (midpoint_records f seen segs).filter (fun p => p.1 == q) =
        [(q, find_midpoint s0)] := by
  intro segs
  induction segs with
  | nil => intro seen s0 _ hfind _; simp at hfind
  | cons s rest ih =>
    intro seen s0 hq hfind hmid
    by_cases hsq : s.qname = q
    · have hps : (fun s : AlignedSegment => s.qname == q) s = true := by simp [hsq]
      rw [List.find?_cons_of_pos rest hps] at hfind
      have hfs : s0 = s := (Option.some.inj hfind).symm
      subst hfs
      have hs_notin : s0.qname ∉ seen := by rw [hsq]; exact hq
      have hin := hmid s0 (List.mem_cons_self s0 rest) hsq
      simp only [midpoint_records, if_neg hs_notin, if_pos hin, List.filter_cons]
      rw [if_pos (by simp [hsq])]
      rw [records_skip_seen f q rest (s0.qname :: seen)
        (by rw [hsq]; exact List.mem_cons_self q seen)]
      rw [hsq]
    · have hps : ¬((fun s : AlignedSegment => s.qname == q) s = true) := by simp [hsq]
      rw [List.find?_cons_of_neg rest hps] at hfind
      have hmid' : ∀ s ∈ rest, s.qname = q →
          f.region_start ≤ find_midpoint s ∧ find_midpoint s < f.region_end :=
        fun t ht => hmid t (List.mem_cons_of_mem s ht)
      by_cases hs : s.qname ∈ seen
      · simp only [midpoint_records, if_pos hs]
        exact ih seen s0 hq hfind hmid'
      · have hq' : q ∉ s.qname :: seen := by
          intro h
          rcases List.mem_cons.mp h with h1 | h2
          · exact hsq h1.symm
          · exact hq h2
        by_cases hin : f.region_start ≤ find_midpoint s ∧ find_midpoint s < f.region_end
        · simp only [midpoint_records, if_neg hs, if_pos hin, List.filter_cons]
          rw [if_neg (by simp [hsq])]
          exact ih (s.qname :: seen) s0 hq' hfind hmid'
        · simp only [midpoint_records, if_neg hs, if_neg hin]
          exact ih (s.qname :: seen) s0 hq' hfind hmid'

/-- Claim C9: when the two mates of a pair (same query name) both appear
among the candidate reads and the fragment midpoint lies in the feature's
region, exactly one midpoint is counted for the pair — the one computed
from the first mate encountered; the second mate is skipped. -/
theorem C9_midpoint_dedup (f : ExtendedFeature) (segs : List AlignedSegment)
    (q : String) (s0 : AlignedSegment)
    (hfind : segs.find? (fun s => s.qname == q) = some s0)
    (_hpair : 2 ≤ (segs.filter (fun s => s.qname == q)).length)
    (hmid : ∀ s ∈ segs, s.qname = q →
      f.region_start ≤ find_midpoint s ∧ find_midpoint s < f.region_end) :
    (midpoint_records f [] segs).filter (fun p => p.1 == q) =
      [(q, find_midpoint s0)] :=
  records_filter_first f q segs [] s0 (by simp) hfind hmid

/-- Witness for C9: a proper pair "p1" (forward mate at [100, 150) with
template length 80, reverse mate at [130, 180) with template length -80)
around a feature with region [5, 205); both mates yield midpoint 140, and
exactly one record survives. -/
theorem C9_witness :
    (midpoint_records ⟨"chr1", 100, 110, none, none, 100⟩ []
        [⟨"p1", 99, 100, 150, false, 80, 60, 130⟩,
          ⟨"p1", 147, 130, 180, true, -80, 60, 100⟩]).filter (fun p => p.1 == "p1") =
      [("p1", 140)] := by
  have h := C9_midpoint_dedup ⟨"chr1", 100, 110, none, none, 100⟩
    [⟨"p1", 99, 100, 150, false, 80, 60, 130⟩, ⟨"p1", 147, 130, 180, true, -80, 60, 100⟩]
    "p1" ⟨"p1", 99, 100, 150, false, 80, 60, 130⟩ (by decide) (by decide) (by decide)
  exact h.trans (by decide)

/-- The dense cut-point count vector has one entry per position of
`[start, stop)`. -/
theorem count_cut_points_length (segs : List AlignedSegment) (start stop : Int)
    (off : Int) :
    (count_cut_points segs start stop off).length = (stop - start).toNat := by
  simp only [count_cut_points, List.length_map, List.length_range]

/-- Both oriented cut-point vectors of a bin cover the extended region, of
length twice the feature's extension. -/
theorem bin_cut_point_vectors_length (segs : List AlignedSegment) (f : ExtendedFeature)
    (off minLen maxLen : Int) :
    (bin_cut_point_vectors segs f off minLen maxLen).1.length = 2 * f.extension ∧
    (bin_cut_point_vectors segs f off minLen maxLen).2.length = 2 * f.extension := by
  have hre : (f.region_end - f.region_start).toNat = 2 * f.extension := by
    simp only [ExtendedFeature.region_end, ExtendedFeature.region_start]
    omega
  constructor <;>
  · simp only [bin_cut_point_vectors]
    split <;> simp [count_cut_points_length, hre]

/-- On a vector covering exactly the doubled extension, whole-vector
reduction agrees with `aggregate_scores` precisely because the resolution
divides the extension: the two halves of the vector reduce independently
and the interior slice is empty. -/
theorem reduce_scores_split (v : List Int) (e r : Nat) (hr : 1 ≤ r) (hd : r ∣ e)
    (hv : v.length = 2 * e) :
    reduce_scores v r = aggregate_scores v e r := by
  obtain ⟨k, hk⟩ := hd
  have hT : pySliceTo v (e : Int) = v.take e := by
    have he2 : ((e : Int)).toNat = e := by omega
    rw [pySliceTo, if_neg (by omega), he2]
  have hF : pySliceFrom v (-(e : Int)) = v.drop e := by
    by_cases hcase : (-(e : Int)) < 0
    · rw [pySliceFrom, if_pos hcase]
      congr 1
      omega
    · rw [pySliceFrom, if_neg hcase]
      congr 1
      omega
  have hM : pySlice v (e : Int) (-(e : Int)) = [] := by
    rw [pySlice, if_neg (show ¬((e : Int) < 0) by omega)]
    by_cases hcase : (-(e : Int)) < 0
    · rw [if_pos hcase]
      have hb : ((v.length : Int) + -(e : Int)).toNat = e := by omega
      have ha : ((e : Int)).toNat = e := by omega
      rw [hb, ha]
      apply List.drop_eq_nil_of_le
      rw [List.length_take]
      omega
    · rw [if_neg hcase]
      have he : e = 0 := by omega
      subst he
      simp
  rw [aggregate_scores, hT, hM, hF, List.append_nil]
  rw [reduce_scores_eq_map_sum _ r hr, reduce_scores_eq_map_sum _ r hr,
    reduce_scores_eq_map_sum _ r hr, ← List.map_append]
  refine congrArg _ ?_
  conv_lhs => rw [← List.take_append_drop e v]
  refine partition_append r hr k (v.take e) (v.drop e) ?_
  rw [List.length_take]
  omega

/-- Claim C1 (amended): the discrete row contribution that
`score_feature_with_cut_points` appends for a bin equals
`aggregate_scores` (aggregate_in_extended_region) applied per oriented
vector with the feature's extension, provided the bin's resolution divides
the extension; in general the code reduces each whole vector at the bin's
resolution instead. -/
theorem C1_bin_row_aggregate (segs : List AlignedSegment) (f : ExtendedFeature)
    (offset minimum_length maximum_length : Int) (r : Nat)
    (hr : 1 ≤ r) (hd : r ∣ f.extension) :
    bin_scores segs f offset minimum_length maximum_length r =
      aggregate_scores
        (bin_cut_point_vectors segs f offset minimum_length maximum_length).1
        f.extension r ++
      aggregate_scores
        (bin_cut_point_vectors segs f offset minimum_length maximum_length).2
        f.extension r := by
  obtain ⟨h1, h2⟩ := bin_cut_point_vectors_length segs f offset minimum_length maximum_length
  simp only [bin_scores]
  rw [reduce_scores_split _ f.extension r hr hd h1,
    reduce_scores_split _ f.extension r hr hd h2]

/-- Claim C1, counterexample: for the bin (1, 1000, resolution 3) — a
resolution that does not divide the extension 2 — the row contribution
the code appends is the whole-vector reduction [3, 1, 0, 0], while
`aggregate_scores` per vector would give [2, 2, 0, 0]. -/
theorem C1_counterexample :
    bin_scores segsC1 featC1 DEFAULT_CUT_POINT_OFFSET 1 1000 3 = [3, 1, 0, 0] ∧
    aggregate_scores (bin_cut_point_vectors segsC1 featC1 DEFAULT_CUT_POINT_OFFSET 1 1000).1
        featC1.extension 3 ++
      aggregate_scores (bin_cut_point_vectors segsC1 featC1 DEFAULT_CUT_POINT_OFFSET 1 1000).2
        featC1.extension 3 = [2, 2, 0, 0] ∧
    ([3, 1, 0, 0] : List Int) ≠ [2, 2, 0, 0] := by
  decide

/-- Witness for C1 at resolution 2, which divides the extension 2. -/
theorem C1_witness :
    1 ≤ 2 ∧ 2 ∣ featC1.extension ∧
    bin_scores segsC1 featC1 DEFAULT_CUT_POINT_OFFSET 1 1000 2 =
      aggregate_scores (bin_cut_point_vectors segsC1 featC1 DEFAULT_CUT_POINT_OFFSET 1 1000).1
        featC1.extension 2 ++
      aggregate_scores (bin_cut_point_vectors segsC1 featC1 DEFAULT_CUT_POINT_OFFSET 1 1000).2
        featC1.extension 2 :=
  ⟨by decide, by decide,
    C1_bin_row_aggregate segsC1 featC1 DEFAULT_CUT_POINT_OFFSET 1 1000 2
      (by decide) (by decide)⟩

end Atactk
